import Mathlib

/-!
# Verification of the BitTensor GPT inference decode loop

Shallow embedding of `top_k_logits` and `sample` from
`notebooks/GPT_model_inference.ipynb`, together with proofs of the
specification's testable properties.

Modelling conventions:
* A logit ("score") is a `WithBot ℚ`: a rational number, with `⊥` standing
  for the float `-inf` that `top_k_logits` writes into excluded entries.
* `F.softmax` exponentiates and normalizes.  The real exponential is kept
  abstract as a parameter `φ : ℚ → ℚ`; every theorem that depends on its
  behaviour assumes exactly what `exp` satisfies: strict monotonicity and
  positivity.  When every entry of the input is `⊥`, torch produces a NaN
  vector; here the division `0 / 0 = 0` of `ℚ` yields the all-zero vector.
  In both semantics no exception is raised by `softmax` itself, and
  `torch.multinomial` rejects the resulting invalid distribution.
* torch runtime errors that the decoding code can actually hit are made
  explicit in an `Except`: `torch.topk(logits, k)` with `k` outside
  `[1, length]` fails (for `k = 0` the subsequent `v[:, [-1]]` indexing of an
  empty tensor fails), and `torch.multinomial` fails when the probability
  vector has no positive entry (or negative/NaN entries).
* The ambient random source used by `torch.multinomial` is passed explicitly
  as `rng : ℕ → List ℚ → ℕ` (step index and probability vector to a chosen
  token), so stochastic choice is a parameter, not modelled arithmetic.
-/

namespace BitTensorInference

/-- A per-vocabulary-entry score: a rational, with `⊥` playing the role of
the float `-inf` that top-k truncation writes into excluded entries. -/
abbrev Score := WithBot ℚ

/-- The model driven by the decode loop: `get_block_size` from the source and
the composition `target_layer (local_forward xCond).local_hidden` followed by
plucking the final position, i.e. the next-token score vector for a context. -/
structure Model where
  get_block_size : ℕ
  predict : List ℕ → List Score

/-- The threshold `v[:, [-1]]` of `torch.topk(logits, k)`: the k-th largest
value of the list (counting multiplicity), from the descending sort. -/
def kthLargest (logits : List Score) (k : ℕ) : Score :=
  (logits.insertionSort (fun a b => b ≤ a)).getD (k - 1) ⊥

/-- Function `top_k_logits` from the notebook:
`out = logits.clone(); out[out < v[:, [-1]]] = -float('Inf')`. -/
def top_k_logits (logits : List Score) (k : ℕ) : List Score :=
  logits.map (fun e => if e < kthLargest logits k then ⊥ else e)

/-- Entrywise `logits / temperature`; the value `-inf` scaled by a positive
temperature stays `-inf`. -/
def scaleT (temperature : ℚ) (e : Score) : Score :=
  e.map (fun q => q / temperature)

/-- The weight `exp` assigns to one entry: `0` at `-inf`, `φ q` at a finite
score `q` (`φ` abstracts the exponential). -/
def wexp (φ : ℚ → ℚ) (e : Score) : ℚ :=
  WithBot.unbot' 0 (e.map φ)

/-- Softmax `F.softmax(logits, dim=-1)`: exponentiate entrywise and divide
by the total mass.  On an all-`⊥` vector the total is `0` and the result is the
all-zero vector (torch produces NaN there; neither semantics raises, and
both make `torch.multinomial` fail on the result). -/
def softmaxProbs (φ : ℚ → ℚ) (logits : List Score) : List ℚ :=
  logits.map (fun e => wexp φ e / (logits.map (wexp φ)).sum)

/-- Index of the first maximal element, the index `torch.topk(probs, k=1)`
returns: ties are broken toward the lowest index. -/
def argmaxFirst {α : Type} [LinearOrder α] : List α → ℕ
  | [] => 0
  | a :: t => if ∃ b ∈ t, a < b then argmaxFirst t + 1 else 0

/-- torch runtime failures reachable from the decode loop. -/
inductive SampleErr
  | topkInvalid
  | multinomialInvalid
deriving DecidableEq

/-- Cropping `x if x.size(1) <= block_size else x[:, -block_size:]` with
Python slice semantics: `x[:, -0:]` is all of `x`, so a zero limit does not
crop. -/
def cropContext (x : List ℕ) (bs : ℕ) : List ℕ :=
  if x.length ≤ bs then x
  else if bs = 0 then x
  else x.drop (x.length - bs)

/-- Temperature scaling followed by optional top-k truncation, the two
transform lines of `sample`.  `torch.topk(logits, k)` requires
`1 ≤ k ≤ length` (with `k = 0`, the later `v[:, [-1]]` indexes an empty
tensor); outside that range the call raises. -/
def transformLogits (temperature : ℚ) (top_k : Option ℕ) (raw : List Score) :
    Except SampleErr (List Score) :=
  let scaled := raw.map (scaleT temperature)
  match top_k with
  | none => .ok scaled
  | some k =>
      if 1 ≤ k ∧ k ≤ scaled.length then .ok (top_k_logits scaled k)
      else .error .topkInvalid

/-- The selection branch of `sample`: `torch.multinomial(probs, 1)` when
sampling (it raises unless the distribution has nonnegative entries and
positive total mass), `torch.topk(probs, k=1)` otherwise (it raises only on
an empty vector). -/
def chooseToken (stoch : Bool) (rng : ℕ → List ℚ → ℕ) (i : ℕ)
    (probs : List ℚ) : Except SampleErr ℕ :=
  if stoch then
    if (∀ p ∈ probs, 0 ≤ p) ∧ (∃ p ∈ probs, 0 < p) then .ok (rng i probs)
    else .error .multinomialInvalid
  else
    if probs = [] then .error .topkInvalid
    else .ok (argmaxFirst probs)

/-- One iteration of the `for k in range(steps)` loop of `sample`: crop the
context, query the model, transform the final-position logits, softmax,
select, append. -/
def sampleStep (M : Model) (temperature : ℚ) (stoch : Bool)
    (top_k : Option ℕ) (φ : ℚ → ℚ) (rng : ℕ → List ℚ → ℕ)
    (i : ℕ) (x : List ℕ) : Except SampleErr (List ℕ) :=
  match transformLogits temperature top_k
      (M.predict (cropContext x (M.get_block_size - 1))) with
  | .error e => .error e
  | .ok logits =>
      match chooseToken stoch rng i (softmaxProbs φ logits) with
      | .error e => .error e
      | .ok ix => .ok (x ++ [ix])

/-- The loop of `sample`, running `n` remaining iterations starting at step
index `i`; a torch error aborts with no partial result. -/
def sampleFrom (M : Model) (temperature : ℚ) (stoch : Bool)
    (top_k : Option ℕ) (φ : ℚ → ℚ) (rng : ℕ → List ℚ → ℕ) :
    ℕ → ℕ → List ℕ → Except SampleErr (List ℕ)
  | _, 0, x => .ok x
  | i, n + 1, x =>
      match sampleStep M temperature stoch top_k φ rng i x with
      | .error e => .error e
      | .ok x1 => sampleFrom M temperature stoch top_k φ rng (i + 1) n x1

/-- Function `sample(model, x, steps, temperature, sample, top_k)` from the
notebook: the generation call surface (`generate` in the specification). -/
def sample (M : Model) (x : List ℕ) (steps : ℕ) (temperature : ℚ)
    (stoch : Bool) (top_k : Option ℕ) (φ : ℚ → ℚ)
    (rng : ℕ → List ℚ → ℕ) : Except SampleErr (List ℕ) :=
  sampleFrom M temperature stoch top_k φ rng 0 steps x

/-- The contexts handed to `model.local_forward` across the run, in order;
a step that fails still queried the predictor first (the query precedes all
arithmetic on its result). -/
def queriedContexts (M : Model) (temperature : ℚ) (stoch : Bool)
    (top_k : Option ℕ) (φ : ℚ → ℚ) (rng : ℕ → List ℚ → ℕ) :
    ℕ → ℕ → List ℕ → List (List ℕ)
  | _, 0, _ => []
  | i, n + 1, x =>
      cropContext x (M.get_block_size - 1) ::
        (match sampleStep M temperature stoch top_k φ rng i x with
        | .error _ => []
        | .ok x1 => queriedContexts M temperature stoch top_k φ rng (i + 1) n x1)

/-- A computable stand-in for the exponential, used to instantiate witnesses:
strictly monotone and everywhere positive, like `Real.exp`. -/
def expRef (q : ℚ) : ℚ :=
  if q < 0 then 1 / (1 - q) else q + 1

/-- A trivial random source for witnesses. -/
def rng0 : ℕ → List ℚ → ℕ := fun _ _ => 0

/-- View a vector of plain rational scores (no `-inf` entries) as logits. -/
def toScores (l : List ℚ) : List Score :=
  l.map (fun q : ℚ => (q : Score))

/-- Test double: block size 3, constant finite scores `[1, 2, 3]`. -/
def M1 : Model :=
  ⟨3, fun _ => [((1 : ℚ) : Score), ((2 : ℚ) : Score), ((3 : ℚ) : Score)]⟩

/-- Test double: block size 3, constant all-`-inf` scores (the degenerate
score vector of the sampling-failure scenario). -/
def M0 : Model :=
  ⟨3, fun _ => [(⊥ : Score), (⊥ : Score)]⟩

/-! ## Basic computation lemmas -/

@[simp]
theorem wexp_bot (φ : ℚ → ℚ) : wexp φ (⊥ : Score) = 0 := rfl

@[simp]
theorem wexp_coe (φ : ℚ → ℚ) (q : ℚ) : wexp φ ((q : ℚ) : Score) = φ q := rfl

@[simp]
theorem scaleT_bot (t : ℚ) : scaleT t (⊥ : Score) = ⊥ := rfl

@[simp]
theorem scaleT_coe (t : ℚ) (q : ℚ) : scaleT t ((q : ℚ) : Score) = ((q / t : ℚ) : Score) := rfl

theorem wexp_nonneg (φ : ℚ → ℚ) (hφ : ∀ q, 0 < φ q) (e : Score) : 0 ≤ wexp φ e := by
  induction e using WithBot.recBotCoe with
  | bot => simp
  | coe q => simpa using (hφ q).le

theorem wexp_strictMono (φ : ℚ → ℚ) (hmono : StrictMono φ) (hφ : ∀ q, 0 < φ q) :
    StrictMono (wexp φ) := by
  intro a b hab
  induction b using WithBot.recBotCoe with
  | bot => exact absurd hab (by simp)
  | coe qb =>
      induction a using WithBot.recBotCoe with
      | bot => simpa using hφ qb
      | coe qa => simpa using hmono (by exact_mod_cast hab)

/-! ## A first maximal element of a nonempty list -/

theorem exists_max {α : Type} [LinearOrder α] :
    ∀ {l : List α}, l ≠ [] → ∃ m ∈ l, ∀ e ∈ l, e ≤ m := by
  intro l
  induction l with
  | nil => intro h; exact absurd rfl h
  | cons a t ih =>
      intro _
      rcases eq_or_ne t [] with rfl | ht
      · exact ⟨a, by simp⟩
      · obtain ⟨m, hm, hmax⟩ := ih ht
        rcases le_total a m with h | h
        · exact ⟨m, by simp [hm], by
            intro e he
            rcases List.mem_cons.1 he with rfl | he
            · exact h
            · exact hmax e he⟩
        · exact ⟨a, by simp, by
            intro e he
            rcases List.mem_cons.1 he with rfl | he
            · exact le_rfl
            · exact (hmax e he).trans h⟩

/-! ## Properties of `argmaxFirst` -/

theorem argmaxFirst_nil {α : Type} [LinearOrder α] : argmaxFirst ([] : List α) = 0 := rfl

theorem argmaxFirst_cons {α : Type} [LinearOrder α] (a : α) (t : List α) :
    argmaxFirst (a :: t) = if ∃ b ∈ t, a < b then argmaxFirst t + 1 else 0 := rfl

theorem argmaxFirst_lt_length {α : Type} [LinearOrder α] :
    ∀ {l : List α}, l ≠ [] → argmaxFirst l < l.length := by
  intro l
  induction l with
  | nil => intro h; exact absurd rfl h
  | cons a t ih =>
      intro _
      rw [argmaxFirst_cons]
      by_cases hc : ∃ b ∈ t, a < b
      · rw [if_pos hc]
        have ht : t ≠ [] := by
          rcases hc with ⟨b, hb, _⟩
          exact List.ne_nil_of_mem hb
        simpa [List.length_cons] using ih ht
      · rw [if_neg hc]; simp

theorem argmaxFirst_le {α : Type} [LinearOrder α] (d : α) :
    ∀ {l : List α} (j : ℕ), j < l.length → l.getD j d ≤ l.getD (argmaxFirst l) d := by
  intro l
  induction l with
  | nil => intro j hj; simp at hj
  | cons a t ih =>
      intro j hj
      rw [argmaxFirst_cons]
      by_cases hc : ∃ b ∈ t, a < b
      · rw [if_pos hc]
        obtain ⟨b, hb, hab⟩ := hc
        obtain ⟨jb, hjb, rfl⟩ := List.mem_iff_getElem.1 hb
        have hmaxb : t.getD jb d ≤ t.getD (argmaxFirst t) d := ih jb hjb
        rw [t.getD_eq_getElem d hjb] at hmaxb
        match j with
        | 0 =>
            simpa using (hab.le.trans hmaxb)
        | j + 1 =>
            have hj' : j < t.length := by simpa using hj
            simpa using ih j hj'
      · rw [if_neg hc]
        push_neg at hc
        match j with
        | 0 => simp
        | j + 1 =>
            have hj' : j < t.length := by simpa using hj
            have : t.getD j d ∈ t := by
              rw [t.getD_eq_getElem d hj']
              exact List.getElem_mem hj'
            simpa using hc _ this

theorem argmaxFirst_lt_of_lt {α : Type} [LinearOrder α] (d : α) :
    ∀ {l : List α} (j : ℕ), j < argmaxFirst l → l.getD j d < l.getD (argmaxFirst l) d := by
  intro l
  induction l with
  | nil => intro j hj; simp [argmaxFirst_nil] at hj
  | cons a t ih =>
      intro j hj
      rw [argmaxFirst_cons] at hj ⊢
      by_cases hc : ∃ b ∈ t, a < b
      · rw [if_pos hc] at hj ⊢
        obtain ⟨b, hb, hab⟩ := hc
        obtain ⟨jb, hjb, rfl⟩ := List.mem_iff_getElem.1 hb
        have hmaxb : t.getD jb d ≤ t.getD (argmaxFirst t) d := argmaxFirst_le d jb hjb
        rw [t.getD_eq_getElem d hjb] at hmaxb
        match j with
        | 0 => simpa using lt_of_lt_of_le hab hmaxb
        | j + 1 =>
            have hj' : j < argmaxFirst t := by omega
            simpa using ih j hj'
      · rw [if_neg hc] at hj
        omega

theorem argmaxFirst_unique {α : Type} [LinearOrder α] (d : α) :
    ∀ {l : List α} (i : ℕ), i < l.length →
      (∀ j, j < l.length → l.getD j d ≤ l.getD i d) →
      (∀ j, j < i → l.getD j d < l.getD i d) →
      argmaxFirst l = i := by
  intro l
  induction l with
  | nil => intro i hi; simp at hi
  | cons a t ih =>
      intro i hi hmax hfirst
      rw [argmaxFirst_cons]
      match i with
      | 0 =>
          rw [if_neg]
          push_neg
          intro b hb
          obtain ⟨jb, hjb, rfl⟩ := List.mem_iff_getElem.1 hb
          have := hmax (jb + 1) (by simpa using hjb)
          simp only [List.getD_cons_succ, List.getD_cons_zero] at this
          rw [t.getD_eq_getElem d hjb] at this
          exact this
      | i + 1 =>
          have hi' : i < t.length := by simpa using hi
          have ha : a < (a :: t).getD (i + 1) d := by
            have := hfirst 0 (by omega)
            simpa using this
          rw [if_pos]
          · have : argmaxFirst t = i := by
              apply ih i hi'
              · intro j hj
                have := hmax (j + 1) (by simpa using hj)
                simpa using this
              · intro j hj
                have := hfirst (j + 1) (by omega)
                simpa using this
            omega
          · refine ⟨t.getD i d, ?_, by simpa using ha⟩
            rw [t.getD_eq_getElem d hi']
            exact List.getElem_mem hi'

theorem argmaxFirst_map {α β : Type} [LinearOrder α] [LinearOrder β]
    (f : α → β) (hf : StrictMono f) :
    ∀ (l : List α), argmaxFirst (l.map f) = argmaxFirst l := by
  intro l
  induction l with
  | nil => rfl
  | cons a t ih =>
      rw [List.map_cons, argmaxFirst_cons, argmaxFirst_cons, ih]
      congr 1
      simp only [eq_iff_iff, List.mem_map]
      constructor
      · rintro ⟨b, ⟨c, hc, rfl⟩, hlt⟩
        exact ⟨c, hc, hf.lt_iff_lt.1 hlt⟩
      · rintro ⟨c, hc, hlt⟩
        exact ⟨f c, ⟨c, hc, rfl⟩, hf hlt⟩

/-! ## Context cropping -/

theorem cropContext_suffix (x : List ℕ) (bs : ℕ) : cropContext x bs <:+ x := by
  unfold cropContext
  split
  · exact List.suffix_rfl
  · split
    · exact List.suffix_rfl
    · exact List.drop_suffix _ _

theorem cropContext_length (x : List ℕ) (bs : ℕ) (hbs : 0 < bs) :
    (cropContext x bs).length = min x.length bs := by
  unfold cropContext
  split
  · omega
  · rw [if_neg (by omega)]
    rw [List.length_drop]
    omega

theorem cropContext_of_le (x : List ℕ) (bs : ℕ) (h : x.length ≤ bs) :
    cropContext x bs = x := by
  unfold cropContext
  rw [if_pos h]

theorem cropContext_length_le (x : List ℕ) (bs : ℕ) (hbs : 0 < bs) :
    (cropContext x bs).length ≤ bs := by
  rw [cropContext_length x bs hbs]
  omega

/-! ## The reference exponential -/

theorem expRef_pos (q : ℚ) : 0 < expRef q := by
  unfold expRef
  split
  · next h =>
      have h1 : (0 : ℚ) < 1 - q := by linarith
      positivity
  · next h => push_neg at h; linarith

theorem expRef_strictMono : StrictMono expRef := by
  intro a b hab
  unfold expRef
  rcases lt_or_le a 0 with ha | ha
  · rw [if_pos ha]
    rcases lt_or_le b 0 with hb | hb
    · rw [if_pos hb]
      have h1 : (0 : ℚ) < 1 - a := by linarith
      have h2 : (0 : ℚ) < 1 - b := by linarith
      rw [div_lt_div_iff₀ h1 h2]
      linarith
    · rw [if_neg (not_lt.2 hb)]
      have h1 : (0 : ℚ) < 1 - a := by linarith
      have : 1 / (1 - a) < 1 := by
        rw [div_lt_one h1]
        linarith
      linarith
  · rw [if_neg (not_lt.2 ha), if_neg (by push_neg; linarith)]
    linarith

/-! ## Softmax facts -/

theorem softmaxProbs_length (φ : ℚ → ℚ) (l : List Score) :
    (softmaxProbs φ l).length = l.length := by
  simp [softmaxProbs]

theorem softmaxProbs_nonneg (φ : ℚ → ℚ) (hφ : ∀ q, 0 < φ q) (l : List Score) :
    ∀ p ∈ softmaxProbs φ l, 0 ≤ p := by
  intro p hp
  obtain ⟨e, _, rfl⟩ := List.mem_map.1 hp
  have hsum : 0 ≤ (l.map (wexp φ)).sum := by
    apply List.sum_nonneg
    intro q hq
    obtain ⟨e1, _, rfl⟩ := List.mem_map.1 hq
    exact wexp_nonneg φ hφ e1
  exact div_nonneg (wexp_nonneg φ hφ e) hsum

theorem sum_wexp_pos (φ : ℚ → ℚ) (hφ : ∀ q, 0 < φ q) (l : List Score)
    (hfin : ∃ e ∈ l, e ≠ ⊥) : 0 < (l.map (wexp φ)).sum := by
  obtain ⟨e, he, hbot⟩ := hfin
  obtain ⟨q, rfl⟩ := WithBot.ne_bot_iff_exists.1 hbot
  have hmem : wexp φ ((q : ℚ) : Score) ∈ l.map (wexp φ) := List.mem_map_of_mem _ he
  have hle : wexp φ ((q : ℚ) : Score) ≤ (l.map (wexp φ)).sum := by
    apply List.single_le_sum _ _ hmem
    intro x hx
    obtain ⟨e1, _, rfl⟩ := List.mem_map.1 hx
    exact wexp_nonneg φ hφ e1
  have : 0 < wexp φ ((q : ℚ) : Score) := by simpa using hφ q
  linarith

theorem softmaxProbs_exists_pos (φ : ℚ → ℚ) (hφ : ∀ q, 0 < φ q) (l : List Score)
    (hfin : ∃ e ∈ l, e ≠ ⊥) : ∃ p ∈ softmaxProbs φ l, 0 < p := by
  obtain ⟨e, he, hbot⟩ := hfin
  have hsum : 0 < (l.map (wexp φ)).sum := sum_wexp_pos φ hφ l ⟨e, he, hbot⟩
  obtain ⟨q, rfl⟩ := WithBot.ne_bot_iff_exists.1 hbot
  refine ⟨wexp φ ((q : ℚ) : Score) / (l.map (wexp φ)).sum, List.mem_map_of_mem _ he, ?_⟩
  apply div_pos _ hsum
  simpa using hφ q

theorem softmaxProbs_all_zero (φ : ℚ → ℚ) (l : List Score)
    (hbot : ∀ e ∈ l, e = ⊥) : ∀ p ∈ softmaxProbs φ l, p = 0 := by
  intro p hp
  obtain ⟨e, he, rfl⟩ := List.mem_map.1 hp
  rw [hbot e he]
  simp

/-- The deterministic argmax ignores a softmax with positive total mass:
the map `e ↦ wexp φ e / T` is strictly monotone for `T > 0`. -/
theorem argmaxFirst_softmax (φ : ℚ → ℚ) (hmono : StrictMono φ) (hφ : ∀ q, 0 < φ q)
    (l : List Score) (hfin : ∃ e ∈ l, e ≠ ⊥) :
    argmaxFirst (softmaxProbs φ l) = argmaxFirst l := by
  have hsum : 0 < (l.map (wexp φ)).sum := sum_wexp_pos φ hφ l hfin
  have : softmaxProbs φ l = l.map (fun e => wexp φ e / (l.map (wexp φ)).sum) := rfl
  rw [this]
  apply argmaxFirst_map
  intro a b hab
  exact div_lt_div_of_pos_right (wexp_strictMono φ hmono hφ hab) hsum

/-! ## The k-th largest value and counting around the top-k threshold -/

theorem kthLargest_mem (logits : List Score) (k : ℕ) (hk1 : 1 ≤ k)
    (hk2 : k ≤ logits.length) : kthLargest logits k ∈ logits := by
  unfold kthLargest
  have hperm := List.perm_insertionSort (fun a b : Score => b ≤ a) logits
  have hlen := hperm.length_eq
  have hlt : k - 1 < (logits.insertionSort (fun a b => b ≤ a)).length := by omega
  rw [List.getD_eq_getElem _ ⊥ hlt]
  exact hperm.subset (List.getElem_mem hlt)

theorem le_kthLargest_iff_mem_aux {α : Type} [LinearOrder α] (s : List α)
    (hs : s.Sorted (fun a b => b ≤ a)) (k : ℕ) (hk1 : 1 ≤ k) (hk2 : k ≤ s.length)
    (v : α) (hklt : k - 1 < s.length) (hv : s.get ⟨k - 1, hklt⟩ = v)
    (hcount : s.count v = 1) :
    s.countP (fun e => decide (v ≤ e)) = k := by
  have hsplit : s.take k ++ s.drop k = s := List.take_append_drop k s
  have htklen : (s.take k).length = k := by simp; omega
  have htake : s.countP (fun e => decide (v ≤ e)) =
      (s.take k).countP (fun e => decide (v ≤ e)) +
        (s.drop k).countP (fun e => decide (v ≤ e)) := by
    conv_lhs => rw [← hsplit]
    exact List.countP_append _ _ _
  have hkm : s.get ⟨k - 1, hklt⟩ ∈ s.take k := by
    have hbound : k - 1 < (s.take k).length := by omega
    have : (s.take k)[k - 1] = s[k - 1] := List.getElem_take _
    rw [List.mem_iff_getElem]
    exact ⟨k - 1, hbound, this⟩
  have hcnt_take : 1 ≤ (s.take k).count v := by
    rw [Nat.one_le_iff_ne_zero, Ne, List.count_eq_zero]
    intro hnot
    exact hnot (hv ▸ hkm)
  have htake_all : ∀ x ∈ s.take k, v ≤ x := by
    intro x hx
    rw [List.mem_iff_getElem] at hx
    obtain ⟨i, hi, rfl⟩ := hx
    have hi' : i < k := by omega
    have hiS : i < s.length := by omega
    have hgt : (s.take k)[i] = s[i] := List.getElem_take _
    rw [hgt]
    rcases eq_or_lt_of_le (Nat.le_sub_one_of_lt hi' : i ≤ k - 1) with heq | hlt
    · rw [← hv]
      simp [heq]
    · have := hs.rel_get_of_lt (by simpa using hlt : (⟨i, hiS⟩ : Fin s.length) < ⟨k - 1, hklt⟩)
      rw [hv] at this
      exact this
  have hdrop_none : ∀ x ∈ s.drop k, ¬ v ≤ x := by
    intro x hx
    have hxv : x ≠ v := by
      intro heq
      subst heq
      have hcnt_drop : 1 ≤ (s.drop k).count x := by
        rw [Nat.one_le_iff_ne_zero, Ne, List.count_eq_zero]
        intro hnot
        exact hnot hx
      have : s.count x = (s.take k).count x + (s.drop k).count x := by
        conv_lhs => rw [← hsplit]
        exact List.count_append _ _ _
      rw [hcount] at this
      omega
    rw [List.mem_iff_getElem] at hx
    obtain ⟨i, hi, rfl⟩ := hx
    have hiS : k + i < s.length := by
      have := hi
      simp at this
      omega
    have hgt : (s.drop k)[i] = s.get ⟨k + i, hiS⟩ := by
      rw [List.get_eq_getElem]
      exact List.getElem_drop _
    have hle : s.get ⟨k + i, hiS⟩ ≤ v := by
      have := hs.rel_get_of_lt (by simp; omega : (⟨k - 1, hklt⟩ : Fin s.length) < ⟨k + i, hiS⟩)
      rw [hv] at this
      exact this
    rw [hgt] at hxv ⊢
    exact not_le.2 (lt_of_le_of_ne hle hxv)
  have h1 : (s.take k).countP (fun e => decide (v ≤ e)) = (s.take k).length :=
    List.countP_eq_length.2 (fun a ha => by simpa using htake_all a ha)
  have h2 : (s.drop k).countP (fun e => decide (v ≤ e)) = 0 :=
    List.countP_eq_zero.2 (fun a ha => by simpa using hdrop_none a ha)
  rw [htake, h1, h2, htklen]
  omega

/-- With no tie at the threshold value, exactly `k` entries of the list are
at or above the k-th largest value. -/
theorem countP_le_kthLargest (logits : List Score) (k : ℕ) (hk1 : 1 ≤ k)
    (hk2 : k ≤ logits.length)
    (hcount : logits.count (kthLargest logits k) = 1) :
    logits.countP (fun e => decide (kthLargest logits k ≤ e)) = k := by
  have hperm := List.perm_insertionSort (fun a b : Score => b ≤ a) logits
  have hsorted : (logits.insertionSort (fun a b => b ≤ a)).Sorted (fun a b => b ≤ a) :=
    List.sorted_insertionSort _ logits
  have hlen := hperm.length_eq
  have hklt : k - 1 < (logits.insertionSort (fun a b => b ≤ a)).length := by omega
  have hv : (logits.insertionSort (fun a b => b ≤ a)).get ⟨k - 1, hklt⟩ =
      kthLargest logits k := by
    unfold kthLargest
    rw [List.getD_eq_getElem _ ⊥ hklt]
    rfl
  rw [← hperm.countP_eq]
  exact le_kthLargest_iff_mem_aux _ hsorted k hk1 (by omega) _ hklt hv
    (by rw [hperm.count_eq]; exact hcount)

/-- Top-k truncation keeps some finite entry whenever the input has one. -/
theorem top_k_logits_keeps_finite (logits : List Score) (k : ℕ) (hk1 : 1 ≤ k)
    (hk2 : k ≤ logits.length) (hfin : ∃ e ∈ logits, e ≠ ⊥) :
    ∃ e ∈ top_k_logits logits k, e ≠ ⊥ := by
  have hne : logits ≠ [] := by
    obtain ⟨e, he, _⟩ := hfin
    exact List.ne_nil_of_mem he
  obtain ⟨m, hm, hmax⟩ := exists_max hne
  have hmbot : m ≠ ⊥ := by
    obtain ⟨e, he, hebot⟩ := hfin
    intro h
    exact hebot (le_bot_iff.1 (h ▸ hmax e he))
  have hvk : kthLargest logits k ≤ m := hmax _ (kthLargest_mem logits k hk1 hk2)
  refine ⟨m, ?_, hmbot⟩
  have : (if m < kthLargest logits k then (⊥ : Score) else m) = m :=
    if_neg (not_lt.2 hvk)
  rw [← this]
  exact List.mem_map_of_mem _ hm

/-! ## Scaling preserves finiteness -/

theorem scaleT_eq_bot_iff (t : ℚ) (e : Score) : scaleT t e = ⊥ ↔ e = ⊥ := by
  induction e using WithBot.recBotCoe with
  | bot => simp
  | coe q => simp

/-! ## The logit transform -/

theorem transformLogits_none (temperature : ℚ) (raw : List Score) :
    transformLogits temperature none raw = .ok (raw.map (scaleT temperature)) := rfl

theorem transformLogits_some (temperature : ℚ) (k : ℕ) (raw : List Score)
    (hk1 : 1 ≤ k) (hk2 : k ≤ raw.length) :
    transformLogits temperature (some k) raw =
      .ok (top_k_logits (raw.map (scaleT temperature)) k) := by
  simp only [transformLogits]
  rw [if_pos ⟨hk1, by simpa using hk2⟩]

theorem transformLogits_ok (temperature : ℚ) (top_k : Option ℕ) (raw : List Score)
    (htk : top_k = none ∨ ∃ k, top_k = some k ∧ 1 ≤ k ∧ k ≤ raw.length) :
    ∃ L, transformLogits temperature top_k raw = .ok L ∧ L.length = raw.length ∧
      ((∀ e ∈ raw, e ≠ ⊥) → raw ≠ [] → ∃ e ∈ L, e ≠ ⊥) := by
  rcases htk with rfl | ⟨k, rfl, hk1, hk2⟩
  · refine ⟨raw.map (scaleT temperature), transformLogits_none _ _, by simp, ?_⟩
    intro hfin hne
    obtain ⟨e, he⟩ := List.exists_mem_of_ne_nil raw hne
    refine ⟨scaleT temperature e, List.mem_map_of_mem _ he, ?_⟩
    rw [Ne, scaleT_eq_bot_iff]
    exact hfin e he
  · refine ⟨top_k_logits (raw.map (scaleT temperature)) k,
      transformLogits_some _ _ _ hk1 hk2, by simp [top_k_logits], ?_⟩
    intro hfin hne
    apply top_k_logits_keeps_finite _ k hk1 (by simpa using hk2)
    obtain ⟨e, he⟩ := List.exists_mem_of_ne_nil raw hne
    refine ⟨scaleT temperature e, List.mem_map_of_mem _ he, ?_⟩
    rw [Ne, scaleT_eq_bot_iff]
    exact hfin e he

/-! ## Token selection -/

theorem chooseToken_ok (stoch : Bool) (rng : ℕ → List ℚ → ℕ) (i : ℕ)
    (probs : List ℚ) (hne : probs ≠ []) (hnn : ∀ p ∈ probs, 0 ≤ p)
    (hpos : ∃ p ∈ probs, 0 < p) :
    ∃ t, chooseToken stoch rng i probs = .ok t := by
  cases stoch with
  | false =>
      refine ⟨argmaxFirst probs, ?_⟩
      simp only [chooseToken, Bool.false_eq_true, if_false]
      rw [if_neg hne]
  | true =>
      refine ⟨rng i probs, ?_⟩
      simp only [chooseToken, if_true]
      rw [if_pos ⟨hnn, hpos⟩]

theorem chooseToken_degenerate_stoch (rng : ℕ → List ℚ → ℕ) (i : ℕ)
    (probs : List ℚ) (hz : ∀ p ∈ probs, p = 0) :
    chooseToken true rng i probs = .error .multinomialInvalid := by
  simp only [chooseToken, if_true]
  rw [if_neg]
  rintro ⟨-, p, hp, hppos⟩
  rw [hz p hp] at hppos
  exact lt_irrefl 0 hppos

theorem chooseToken_det (rng : ℕ → List ℚ → ℕ) (i : ℕ) (probs : List ℚ)
    (hne : probs ≠ []) : chooseToken false rng i probs = .ok (argmaxFirst probs) := by
  simp only [chooseToken, Bool.false_eq_true, if_false]
  rw [if_neg hne]

/-! ## One decode step under a valid configuration -/

theorem sampleStep_ok (M : Model) (V : ℕ) (temperature : ℚ) (stoch : Bool)
    (top_k : Option ℕ) (φ : ℚ → ℚ) (rng : ℕ → List ℚ → ℕ)
    (hV : 1 ≤ V) (hlen : ∀ c, (M.predict c).length = V)
    (hfin : ∀ c, ∀ e ∈ M.predict c, e ≠ ⊥)
    (hφ : ∀ q, 0 < φ q)
    (htk : top_k = none ∨ ∃ k, top_k = some k ∧ 1 ≤ k ∧ k ≤ V)
    (i : ℕ) (x : List ℕ) :
    ∃ t, sampleStep M temperature stoch top_k φ rng i x = .ok (x ++ [t]) := by
  have hrawlen : (M.predict (cropContext x (M.get_block_size - 1))).length = V := hlen _
  have hrawne : M.predict (cropContext x (M.get_block_size - 1)) ≠ [] := by
    intro h
    rw [h] at hrawlen
    simp at hrawlen
    omega
  obtain ⟨L, hL, hLlen, hLfin⟩ := transformLogits_ok temperature top_k _
    (by rw [hrawlen]; exact htk)
  have hfinL : ∃ e ∈ L, e ≠ ⊥ := hLfin (hfin _) hrawne
  have hprobs_ne : softmaxProbs φ L ≠ [] := by
    have : (softmaxProbs φ L).length = V := by rw [softmaxProbs_length, hLlen, hrawlen]
    intro h
    rw [h] at this
    simp at this
    omega
  obtain ⟨t, ht⟩ := chooseToken_ok stoch rng i _ hprobs_ne
    (softmaxProbs_nonneg φ hφ L) (softmaxProbs_exists_pos φ hφ L hfinL)
  refine ⟨t, ?_⟩
  simp only [sampleStep, hL, ht]

/-! ## The decode loop under a valid configuration -/

theorem sampleFrom_ok (M : Model) (V : ℕ) (temperature : ℚ) (stoch : Bool)
    (top_k : Option ℕ) (φ : ℚ → ℚ) (rng : ℕ → List ℚ → ℕ)
    (hV : 1 ≤ V) (hlen : ∀ c, (M.predict c).length = V)
    (hfin : ∀ c, ∀ e ∈ M.predict c, e ≠ ⊥)
    (hφ : ∀ q, 0 < φ q)
    (htk : top_k = none ∨ ∃ k, top_k = some k ∧ 1 ≤ k ∧ k ≤ V) :
    ∀ (n i : ℕ) (x : List ℕ),
      ∃ l, sampleFrom M temperature stoch top_k φ rng i n x = .ok l ∧
        l.length = x.length + n := by
  intro n
  induction n with
  | zero => intro i x; exact ⟨x, rfl, by omega⟩
  | succ n ih =>
      intro i x
      obtain ⟨t, ht⟩ :=
        sampleStep_ok M V temperature stoch top_k φ rng hV hlen hfin hφ htk i x
      obtain ⟨l, hl, hlen2⟩ := ih (i + 1) (x ++ [t])
      refine ⟨l, ?_, by simp at hlen2; omega⟩
      rw [sampleFrom, ht]
      exact hl

/-! ## The trace of queried contexts -/

theorem queriedContexts_length_le (M : Model) (temperature : ℚ) (stoch : Bool)
    (top_k : Option ℕ) (φ : ℚ → ℚ) (rng : ℕ → List ℚ → ℕ)
    (hbs : 0 < M.get_block_size - 1) :
    ∀ (n i : ℕ) (x : List ℕ),
      ∀ c ∈ queriedContexts M temperature stoch top_k φ rng i n x,
        c.length ≤ M.get_block_size - 1 := by
  intro n
  induction n with
  | zero => intro i x c hc; simp [queriedContexts] at hc
  | succ n ih =>
      intro i x c hc
      rw [queriedContexts] at hc
      rcases List.mem_cons.1 hc with rfl | hc2
      · exact cropContext_length_le _ _ hbs
      · rcases h : sampleStep M temperature stoch top_k φ rng i x with e | x1
        · rw [h] at hc2; simp at hc2
        · rw [h] at hc2; exact ih (i + 1) x1 c hc2

theorem queriedContexts_succ_head (M : Model) (temperature : ℚ) (stoch : Bool)
    (top_k : Option ℕ) (φ : ℚ → ℚ) (rng : ℕ → List ℚ → ℕ) (i n : ℕ) (x : List ℕ) :
    ∃ rest, queriedContexts M temperature stoch top_k φ rng i (n + 1) x =
      cropContext x (M.get_block_size - 1) :: rest :=
  ⟨_, rfl⟩

/-! ## Deterministic mode ignores the random source -/

theorem sampleStep_det_rng (M : Model) (temperature : ℚ) (top_k : Option ℕ)
    (φ : ℚ → ℚ) (rng1 rng2 : ℕ → List ℚ → ℕ) (i : ℕ) (x : List ℕ) :
    sampleStep M temperature false top_k φ rng1 i x =
      sampleStep M temperature false top_k φ rng2 i x := by
  rcases h : transformLogits temperature top_k
      (M.predict (cropContext x (M.get_block_size - 1))) with e | L
  · simp only [sampleStep, h]
  · simp only [sampleStep, h, chooseToken, Bool.false_eq_true, if_false]

theorem sampleFrom_det_rng (M : Model) (temperature : ℚ) (top_k : Option ℕ)
    (φ : ℚ → ℚ) (rng1 rng2 : ℕ → List ℚ → ℕ) :
    ∀ (n i : ℕ) (x : List ℕ),
      sampleFrom M temperature false top_k φ rng1 i n x =
        sampleFrom M temperature false top_k φ rng2 i n x := by
  intro n
  induction n with
  | zero => intro i x; rfl
  | succ n ih =>
      intro i x
      rw [sampleFrom, sampleFrom, sampleStep_det_rng M temperature top_k φ rng1 rng2 i x]
      rcases h : sampleStep M temperature false top_k φ rng2 i x with e | x1
      · rfl
      · exact ih (i + 1) x1

/-! ## Degenerate (all `-inf`) score vectors -/

theorem sampleStep_degenerate (M : Model) (temperature : ℚ) (stoch : Bool)
    (φ : ℚ → ℚ) (rng : ℕ → List ℚ → ℕ) (i : ℕ) (x : List ℕ)
    (hbot : ∀ e ∈ M.predict (cropContext x (M.get_block_size - 1)), e = ⊥)
    (hne : M.predict (cropContext x (M.get_block_size - 1)) ≠ []) :
    sampleStep M temperature stoch none φ rng i x =
      if stoch then .error .multinomialInvalid
      else .ok (x ++ [argmaxFirst (softmaxProbs φ
        ((M.predict (cropContext x (M.get_block_size - 1))).map (scaleT temperature)))]) := by
  have hscaled_bot : ∀ e ∈ (M.predict (cropContext x (M.get_block_size - 1))).map
      (scaleT temperature), e = ⊥ := by
    intro e he
    obtain ⟨e0, he0, rfl⟩ := List.mem_map.1 he
    rw [hbot e0 he0]
    simp
  have hz : ∀ p ∈ softmaxProbs φ ((M.predict (cropContext x (M.get_block_size - 1))).map
      (scaleT temperature)), p = 0 := softmaxProbs_all_zero φ _ hscaled_bot
  have hprobs_ne : softmaxProbs φ ((M.predict (cropContext x (M.get_block_size - 1))).map
      (scaleT temperature)) ≠ [] := by
    intro h
    have := congrArg List.length h
    rw [softmaxProbs_length] at this
    simp at this
    exact hne this
  cases stoch with
  | false =>
      simp only [sampleStep, transformLogits_none, Bool.false_eq_true, if_false]
      rw [chooseToken_det rng i _ hprobs_ne]
  | true =>
      simp only [sampleStep, transformLogits_none, if_true]
      rw [chooseToken_degenerate_stoch rng i _ hz]

/-! ## Small indexing helpers -/

theorem getD_of_lt {α : Type} (L : List α) (j : ℕ) (h : j < L.length) (d : α) :
    L.getD j d = L.get ⟨j, h⟩ := by
  rw [List.getD_eq_getElem _ d h]
  simp

theorem getD_map_of_lt {α β : Type} (f : α → β) (L : List α) (j : ℕ)
    (h : j < L.length) (d : β) :
    (L.map f).getD j d = f (L.get ⟨j, h⟩) := by
  rw [List.getD_eq_getElem _ d (by simpa using h)]
  simp

/-! ## Claims -/

/-- Claim C1: for every seed sequence, every step count, and every valid
configuration (positive temperature, top-k within `[1, V]`, predictor
returning finite score vectors of length `V ≥ 1`), each decode step appends
exactly one token and `sample` succeeds with a sequence of length
`seed length + steps`. -/
theorem claim_C1_generate_length (M : Model) (V : ℕ) (x : List ℕ) (steps : ℕ)
    (temperature : ℚ) (stoch : Bool) (top_k : Option ℕ) (φ : ℚ → ℚ)
    (rng : ℕ → List ℚ → ℕ)
    (hV : 1 ≤ V) (hlen : ∀ c, (M.predict c).length = V)
    (hfin : ∀ c, ∀ e ∈ M.predict c, e ≠ ⊥)
    (htemp : 0 < temperature) (hφ : ∀ q, 0 < φ q)
    (htk : top_k = none ∨ ∃ k, top_k = some k ∧ 1 ≤ k ∧ k ≤ V) :
    (∀ (i : ℕ) (y : List ℕ),
        ∃ t, sampleStep M temperature stoch top_k φ rng i y = .ok (y ++ [t])) ∧
      ∃ l, sample M x steps temperature stoch top_k φ rng = .ok l ∧
        l.length = x.length + steps := by
  constructor
  · intro i y
    exact sampleStep_ok M V temperature stoch top_k φ rng hV hlen hfin hφ htk i y
  · exact sampleFrom_ok M V temperature stoch top_k φ rng hV hlen hfin hφ htk steps 0 x

/-- Witness for C1 at a concrete model, seed `[5]`, two steps, stochastic
mode with top-2. -/
theorem claim_C1_witness :
    ∃ l, sample M1 [5] 2 1 true (some 2) expRef rng0 = .ok l ∧ l.length = 3 := by
  have h := claim_C1_generate_length M1 3 [5] 2 1 true (some 2) expRef rng0
    (by decide) (fun c => rfl)
    (fun c e he => by
      have : e = ((1 : ℚ) : Score) ∨ e = ((2 : ℚ) : Score) ∨ e = ((3 : ℚ) : Score) := by
        simpa [M1] using he
      rcases this with rfl | rfl | rfl <;> decide)
    (by decide) expRef_pos (Or.inr ⟨2, rfl, by decide, by decide⟩)
  simpa using h.2

/-- Claim C6: with `steps = 0` the loop body never runs: `sample` returns the
seed unchanged and the predictor is never queried. -/
theorem claim_C6_zero_steps (M : Model) (x : List ℕ) (temperature : ℚ)
    (stoch : Bool) (top_k : Option ℕ) (φ : ℚ → ℚ) (rng : ℕ → List ℚ → ℕ) :
    sample M x 0 temperature stoch top_k φ rng = .ok x ∧
      queriedContexts M temperature stoch top_k φ rng 0 0 x = [] :=
  ⟨rfl, rfl⟩

/-- Claim C4: for a positive context limit, the crop is the trailing slice
of the sequence, of length `min (length) (limit)`, the identity when the
sequence already fits, and every context the loop hands to the predictor
obeys the limit. -/
theorem claim_C4_context_window (bs : ℕ) (hbs : 0 < bs) (x : List ℕ) :
    cropContext x bs <:+ x ∧
      (cropContext x bs).length = min x.length bs ∧
      (x.length ≤ bs → cropContext x bs = x) ∧
      ∀ (M : Model) (temperature : ℚ) (stoch : Bool) (top_k : Option ℕ)
        (φ : ℚ → ℚ) (rng : ℕ → List ℚ → ℕ) (n i : ℕ) (y : List ℕ),
        M.get_block_size - 1 = bs →
        ∀ c ∈ queriedContexts M temperature stoch top_k φ rng i n y, c.length ≤ bs := by
  refine ⟨cropContext_suffix x bs, cropContext_length x bs hbs,
    cropContext_of_le x bs, ?_⟩
  intro M temperature stoch top_k φ rng n i y hM c hc
  have := queriedContexts_length_le M temperature stoch top_k φ rng
    (by rw [hM]; exact hbs) n i y c hc
  rw [hM] at this
  exact this

/-- Witness for C4 at limit 2 and sequence `[1, 2, 3]`. -/
theorem claim_C4_witness :
    (cropContext [1, 2, 3] 2).length = min 3 2 ∧ cropContext [1, 2, 3] 2 <:+ [1, 2, 3] :=
  ⟨(claim_C4_context_window 2 (by decide) [1, 2, 3]).2.1,
    (claim_C4_context_window 2 (by decide) [1, 2, 3]).1⟩

/-- Claim C9: the decode loop derives its context limit from the model as
`get_block_size - 1`, and (for a model with `get_block_size ≥ 2`, i.e. a
positive effective limit as the specification's data model requires) every
context passed to the forward call is at most that long. -/
theorem claim_C9_block_size_bound (M : Model) (temperature : ℚ) (stoch : Bool)
    (top_k : Option ℕ) (φ : ℚ → ℚ) (rng : ℕ → List ℚ → ℕ)
    (hbs : 2 ≤ M.get_block_size) (n i : ℕ) (x : List ℕ) :
    ∀ c ∈ queriedContexts M temperature stoch top_k φ rng i n x,
      c.length ≤ M.get_block_size - 1 :=
  queriedContexts_length_le M temperature stoch top_k φ rng (by omega) n i x

/-- Witness for C9: the context queried on the single step from seed `[9]`
under `M1` (block size 3) is within the limit 2. -/
theorem claim_C9_witness :
    (cropContext [9] (M1.get_block_size - 1)).length ≤ M1.get_block_size - 1 := by
  apply claim_C9_block_size_bound M1 1 false none expRef rng0 (by decide) 1 0 [9]
  obtain ⟨rest, hrest⟩ := queriedContexts_succ_head M1 1 false none expRef rng0 0 0 [9]
  rw [hrest]
  exact List.mem_cons_self _ _

/-- Claim C2 counterexample: with `temperature = 0` the code performs no
validation at all; the single decode step still queries the predictor (the
trace of queried contexts is `[[0]]`, not empty), refuting "a
ConfigurationError is raised before any predictor call". -/
theorem claim_C2_counterexample :
    queriedContexts M1 0 false none expRef rng0 0 1 [0] = [[0]] := by
  rw [queriedContexts]
  rcases h : sampleStep M1 0 false none expRef rng0 0 [0] with e | x1 <;> rfl

/-- Claim C2 amended: `sample` contains no configuration check; with
`temperature ≤ 0` and at least one step, the loop starts and the first
context handed to the predictor is the cropped seed. -/
theorem claim_C2_amended_no_validation (M : Model) (x : List ℕ) (steps : ℕ)
    (temperature : ℚ) (stoch : Bool) (top_k : Option ℕ) (φ : ℚ → ℚ)
    (rng : ℕ → List ℚ → ℕ) (htemp : temperature ≤ 0) (hsteps : 1 ≤ steps) :
    queriedContexts M temperature stoch top_k φ rng 0 steps x ≠ [] ∧
      (queriedContexts M temperature stoch top_k φ rng 0 steps x).head? =
        some (cropContext x (M.get_block_size - 1)) := by
  obtain ⟨m, rfl⟩ : ∃ m, steps = m + 1 := ⟨steps - 1, by omega⟩
  obtain ⟨rest, hrest⟩ := queriedContexts_succ_head M temperature stoch top_k φ rng 0 m x
  rw [hrest]
  exact ⟨by simp, rfl⟩

/-- Witness for the amended C2 at temperature 0, two steps. -/
theorem claim_C2_witness :
    queriedContexts M1 0 true (some 1) expRef rng0 0 2 [7] ≠ [] :=
  (claim_C2_amended_no_validation M1 [7] 2 0 true (some 1) expRef rng0
    (by decide) (by decide)).1

/-- Claim C5 counterexample: under the all-`-inf` predictor `M0`, the
post-transform vector of the first step has no positive-probability entry,
yet deterministic `sample` does not raise: it appends a token (the argmax of
the degenerate distribution, index 0) and returns normally — refuting "a
SamplingError is propagated ... it does not substitute a default token". -/
theorem claim_C5_counterexample :
    (∀ e ∈ M0.predict (cropContext [0] (M0.get_block_size - 1)), e = ⊥) ∧
      sample M0 [0] 1 1 false none expRef rng0 = .ok [0, 0] := by
  refine ⟨by decide, ?_⟩
  have hd := sampleStep_degenerate M0 1 false expRef rng0 0 [0] (by decide) (by decide)
  simp only [Bool.false_eq_true, if_false] at hd
  have hmap : (M0.predict (cropContext [0] (M0.get_block_size - 1))).map (scaleT 1) =
      [(⊥ : Score), (⊥ : Score)] := by decide
  rw [hmap] at hd
  have hargmax : argmaxFirst (softmaxProbs expRef [(⊥ : Score), (⊥ : Score)]) = 0 := by
    simp [softmaxProbs, argmaxFirst]
  rw [hargmax] at hd
  rw [sample, sampleFrom, hd]
  rfl

/-- Claim C5 amended: on a step whose score vector is entirely `-inf`
(nonempty, no top-k), stochastic mode fails — `torch.multinomial` rejects
the degenerate distribution and the error propagates out of `sample`
immediately — while deterministic mode raises nothing and appends the argmax
of the degenerate distribution as a substitute token. -/
theorem claim_C5_amended_degenerate (M : Model) (x : List ℕ) (temperature : ℚ)
    (φ : ℚ → ℚ) (rng : ℕ → List ℚ → ℕ) (steps i : ℕ)
    (hbot : ∀ e ∈ M.predict (cropContext x (M.get_block_size - 1)), e = ⊥)
    (hne : M.predict (cropContext x (M.get_block_size - 1)) ≠ [])
    (hsteps : 1 ≤ steps) :
    sample M x steps temperature true none φ rng = .error .multinomialInvalid ∧
      sampleStep M temperature false none φ rng i x =
        .ok (x ++ [argmaxFirst (softmaxProbs φ
          ((M.predict (cropContext x (M.get_block_size - 1))).map (scaleT temperature)))]) := by
  constructor
  · obtain ⟨m, rfl⟩ : ∃ m, steps = m + 1 := ⟨steps - 1, by omega⟩
    have hd := sampleStep_degenerate M temperature true φ rng 0 x hbot hne
    simp only [if_true] at hd
    rw [sample, sampleFrom, hd]
  · have hd := sampleStep_degenerate M temperature false φ rng i x hbot hne
    simpa using hd

/-- Witness for the amended C5: under `M0`, one stochastic step fails with
the multinomial error. -/
theorem claim_C5_witness :
    sample M0 [4] 1 1 true none expRef rng0 = .error .multinomialInvalid :=
  (claim_C5_amended_degenerate M0 [4] 1 expRef rng0 1 0 (by decide) (by decide)
    (by decide)).1

/-- Claim C3: for a score vector with finite entries and `k ∈ [1, V]`,
top-k truncation sends exactly the entries strictly below the k-th largest
value to `-inf`, keeps every entry at or above it unchanged (so ties at the
threshold are retained), and when the threshold value occurs exactly once,
exactly `k` entries remain finite. -/
theorem claim_C3_top_k_truncation (L : List Score) (hfin : ∀ e ∈ L, e ≠ ⊥)
    (k : ℕ) (hk1 : 1 ≤ k) (hk2 : k ≤ L.length) :
    (∀ i, i < L.length →
        ((top_k_logits L k).getD i ⊥ = ⊥ ↔ L.getD i ⊥ < kthLargest L k)) ∧
      (∀ i, i < L.length → ¬ L.getD i ⊥ < kthLargest L k →
        (top_k_logits L k).getD i ⊥ = L.getD i ⊥) ∧
      (L.count (kthLargest L k) = 1 →
        (top_k_logits L k).countP (fun e => decide (e ≠ ⊥)) = k) := by
  refine ⟨?_, ?_, ?_⟩
  · intro i hi
    rw [top_k_logits, getD_map_of_lt _ L i hi, getD_of_lt L i hi]
    constructor
    · intro h
      by_contra hlt
      rw [if_neg hlt] at h
      exact hfin _ (L.get_mem i hi) h
    · intro h
      rw [if_pos h]
  · intro i hi h
    rw [getD_of_lt L i hi] at h
    rw [top_k_logits, getD_map_of_lt _ L i hi, getD_of_lt L i hi, if_neg h]
  · intro hcount
    have hmapped : (top_k_logits L k).countP (fun e => decide (e ≠ ⊥)) =
        L.countP ((fun e => decide (e ≠ ⊥)) ∘
          (fun e => if e < kthLargest L k then (⊥ : Score) else e)) :=
      List.countP_map _ _ _
    rw [hmapped]
    rw [List.countP_congr (q := fun e => decide (kthLargest L k ≤ e)) ?_]
    · exact countP_le_kthLargest L k hk1 hk2 hcount
    · intro e he
      simp only [Function.comp_apply, decide_eq_true_eq]
      by_cases hlt : e < kthLargest L k
      · rw [if_pos hlt]
        simp [hlt, not_le.2 hlt]
      · rw [if_neg hlt]
        simp [hfin e he, not_lt.1 hlt]

/-- Witness for C3: score vector `[3, 1, 2]`, `k = 2`, threshold value 2
occurring once: exactly two finite entries survive. -/
theorem claim_C3_witness :
    (top_k_logits [((3 : ℚ) : Score), ((1 : ℚ) : Score), ((2 : ℚ) : Score)] 2).countP
      (fun e => decide (e ≠ ⊥)) = 2 :=
  (claim_C3_top_k_truncation
    [((3 : ℚ) : Score), ((1 : ℚ) : Score), ((2 : ℚ) : Score)]
    (by decide) 2 (by decide) (by decide)).2.2 (by decide)

/-- Claim C10: deterministic selection computed on the softmax probabilities
coincides with the argmax of the transformed logits themselves, whenever the
vector is not entirely `-inf` (any strictly monotone positive exponential). -/
theorem claim_C10_softmax_argmax (l : List Score) (φ : ℚ → ℚ)
    (hmono : StrictMono φ) (hφ : ∀ q, 0 < φ q) (hfin : ∃ e ∈ l, e ≠ ⊥) :
    argmaxFirst (softmaxProbs φ l) = argmaxFirst l :=
  argmaxFirst_softmax φ hmono hφ l hfin

/-- Witness for C10 on the vector `[-inf, 1, 3, 2]`. -/
theorem claim_C10_witness :
    argmaxFirst (softmaxProbs expRef
        [(⊥ : Score), ((1 : ℚ) : Score), ((3 : ℚ) : Score), ((2 : ℚ) : Score)]) =
      argmaxFirst [(⊥ : Score), ((1 : ℚ) : Score), ((3 : ℚ) : Score), ((2 : ℚ) : Score)] :=
  claim_C10_softmax_argmax _ expRef expRef_strictMono expRef_pos
    ⟨((1 : ℚ) : Score), by decide, by decide⟩

/-- Claim C8: in deterministic mode the selected index is in range, carries a
maximal probability, and every earlier index has strictly smaller probability
(ties broken toward the lowest index); and `sample` in deterministic mode is
independent of the random source, so identical inputs give identical
outputs. -/
theorem claim_C8_deterministic_selection :
    (∀ (φ : ℚ → ℚ) (tl : List Score), tl ≠ [] →
        argmaxFirst (softmaxProbs φ tl) < (softmaxProbs φ tl).length ∧
        (∀ j, j < (softmaxProbs φ tl).length →
          (softmaxProbs φ tl).getD j 0 ≤
            (softmaxProbs φ tl).getD (argmaxFirst (softmaxProbs φ tl)) 0) ∧
        (∀ j, j < argmaxFirst (softmaxProbs φ tl) →
          (softmaxProbs φ tl).getD j 0 <
            (softmaxProbs φ tl).getD (argmaxFirst (softmaxProbs φ tl)) 0)) ∧
      ∀ (M : Model) (x : List ℕ) (steps : ℕ) (temperature : ℚ)
        (top_k : Option ℕ) (φ : ℚ → ℚ) (rng1 rng2 : ℕ → List ℚ → ℕ),
        sample M x steps temperature false top_k φ rng1 =
          sample M x steps temperature false top_k φ rng2 := by
  constructor
  · intro φ tl hne
    have hpne : softmaxProbs φ tl ≠ [] := by
      intro h
      have := congrArg List.length h
      rw [softmaxProbs_length] at this
      exact hne (List.length_eq_zero.1 (by simpa using this))
    exact ⟨argmaxFirst_lt_length hpne, fun j hj => argmaxFirst_le 0 j hj,
      fun j hj => argmaxFirst_lt_of_lt 0 j hj⟩
  · intro M x steps temperature top_k φ rng1 rng2
    exact sampleFrom_det_rng M temperature top_k φ rng1 rng2 steps 0 x

/-- Witness for C8: the selected index is in range for a concrete vector,
and two runs with different random sources agree in deterministic mode. -/
theorem claim_C8_witness :
    argmaxFirst (softmaxProbs expRef [((1 : ℚ) : Score), ((2 : ℚ) : Score)]) <
        (softmaxProbs expRef [((1 : ℚ) : Score), ((2 : ℚ) : Score)]).length ∧
      sample M1 [2] 1 1 false none expRef rng0 =
        sample M1 [2] 1 1 false none expRef (fun _ _ => 5) :=
  ⟨(claim_C8_deterministic_selection.1 expRef _ (by decide)).1,
    claim_C8_deterministic_selection.2 M1 [2] 1 1 none expRef rng0 (fun _ _ => 5)⟩

/-- With `k = 1`, the threshold of top-k truncation is the maximum value. -/
theorem le_kthLargest_one (L : List Score) (hne : L ≠ []) :
    ∀ e ∈ L, e ≤ kthLargest L 1 := by
  intro e he
  have hperm := List.perm_insertionSort (fun a b : Score => b ≤ a) L
  have hsorted : (L.insertionSort (fun a b => b ≤ a)).Sorted (fun a b => b ≤ a) :=
    List.sorted_insertionSort _ L
  have hlen := hperm.length_eq
  have hLpos : 0 < L.length := List.length_pos_of_ne_nil hne
  have h0 : 0 < (L.insertionSort (fun a b => b ≤ a)).length := by omega
  have hv : kthLargest L 1 = (L.insertionSort (fun a b => b ≤ a)).get ⟨0, h0⟩ := by
    unfold kthLargest
    rw [List.getD_eq_getElem _ ⊥ (by omega)]
    rfl
  have hes : e ∈ L.insertionSort (fun a b => b ≤ a) := (hperm.mem_iff).2 he
  obtain ⟨j, hj, hjeq⟩ := List.mem_iff_getElem.1 hes
  rw [hv, ← hjeq]
  rcases Nat.eq_zero_or_pos j with rfl | hjpos
  · simp
  · have := hsorted.rel_get_of_lt
      (show (⟨0, h0⟩ : Fin _) < ⟨j, hj⟩ by simpa using hjpos)
    simpa using this

/-- Claim C7: on a finite score vector, deterministic selection after top-1
truncation equals deterministic selection with no truncation, which is the
unfiltered argmax of the scores. -/
theorem claim_C7_top1_unchanged (l : List ℚ) (hne : l ≠ []) (φ : ℚ → ℚ)
    (hmono : StrictMono φ) (hφ : ∀ q, 0 < φ q) :
    argmaxFirst (softmaxProbs φ (top_k_logits (toScores l) 1)) =
      argmaxFirst (softmaxProbs φ (toScores l)) ∧
    argmaxFirst (softmaxProbs φ (toScores l)) = argmaxFirst l := by
  have hLne : toScores l ≠ [] := by
    intro h
    apply hne
    have := congrArg List.length h
    rw [toScores] at this
    simpa using this
  have hLfinAll : ∀ e ∈ toScores l, e ≠ ⊥ := by
    intro e he
    rw [toScores] at he
    obtain ⟨q, _, rfl⟩ := List.mem_map.1 he
    exact WithBot.coe_ne_bot
  have hLfin : ∃ e ∈ toScores l, e ≠ ⊥ := by
    obtain ⟨e, he⟩ := List.exists_mem_of_ne_nil _ hLne
    exact ⟨e, he, hLfinAll e he⟩
  have hLlen : 0 < (toScores l).length := List.length_pos_of_ne_nil hLne
  have hsecond : argmaxFirst (softmaxProbs φ (toScores l)) = argmaxFirst l := by
    rw [argmaxFirst_softmax φ hmono hφ _ hLfin, toScores]
    exact argmaxFirst_map _ WithBot.coe_strictMono l
  refine ⟨?_, hsecond⟩
  have hK : ∃ e ∈ top_k_logits (toScores l) 1, e ≠ ⊥ :=
    top_k_logits_keeps_finite _ 1 le_rfl hLlen hLfin
  rw [argmaxFirst_softmax φ hmono hφ _ hK, argmaxFirst_softmax φ hmono hφ _ hLfin]
  set L := toScores l with hLdef
  have hi0 : argmaxFirst L < L.length := argmaxFirst_lt_length hLne
  have hmax : ∀ j, j < L.length → L.getD j ⊥ ≤ L.getD (argmaxFirst L) ⊥ :=
    fun j hj => argmaxFirst_le ⊥ j hj
  have hfirst : ∀ j, j < argmaxFirst L → L.getD j ⊥ < L.getD (argmaxFirst L) ⊥ :=
    fun j hj => argmaxFirst_lt_of_lt ⊥ j hj
  have hv1max : ∀ e ∈ L, e ≤ kthLargest L 1 := le_kthLargest_one L hLne
  have hi0mem : L.get ⟨argmaxFirst L, hi0⟩ ∈ L := L.get_mem _ hi0
  have hItop : L.get ⟨argmaxFirst L, hi0⟩ = kthLargest L 1 := by
    refine le_antisymm (hv1max _ hi0mem) ?_
    obtain ⟨jv, hjv, hjveq⟩ :=
      List.mem_iff_getElem.1 (kthLargest_mem L 1 le_rfl hLlen)
    have h2 := hmax jv hjv
    rw [List.getD_eq_getElem _ ⊥ hjv, hjveq, getD_of_lt L _ hi0] at h2
    exact h2
  have hvbot : (⊥ : Score) < kthLargest L 1 := by
    rw [← hItop]
    exact Ne.bot_lt (hLfinAll _ hi0mem)
  have harg : (if L.get ⟨argmaxFirst L, hi0⟩ < kthLargest L 1 then (⊥ : Score)
      else L.get ⟨argmaxFirst L, hi0⟩) = kthLargest L 1 := by
    rw [hItop]
    rw [if_neg (lt_irrefl _)]
  apply argmaxFirst_unique ⊥
  · simpa [top_k_logits] using hi0
  · intro j hj
    have hjL : j < L.length := by simpa [top_k_logits] using hj
    rw [top_k_logits, getD_map_of_lt _ L _ hjL, getD_map_of_lt _ L _ hi0, harg]
    split
    · exact bot_le
    · exact hv1max _ (L.get_mem _ hjL)
  · intro j hj
    have hjL : j < L.length := lt_trans hj hi0
    rw [top_k_logits, getD_map_of_lt _ L _ hjL, getD_map_of_lt _ L _ hi0, harg]
    have hjlt : L.get ⟨j, hjL⟩ < kthLargest L 1 := by
      have h3 := hfirst j hj
      rw [getD_of_lt L _ hjL, getD_of_lt L _ hi0, hItop] at h3
      exact h3
    rw [if_pos hjlt]
    exact hvbot

/-- Witness for C7 on the score vector `[1, 3, 2]`. -/
theorem claim_C7_witness :
    argmaxFirst (softmaxProbs expRef (top_k_logits (toScores [1, 3, 2]) 1)) =
      argmaxFirst (softmaxProbs expRef (toScores [1, 3, 2])) ∧
    argmaxFirst (softmaxProbs expRef (toScores [1, 3, 2])) =
      argmaxFirst [(1 : ℚ), 3, 2] :=
  claim_C7_top1_unchanged [1, 3, 2] (by decide) expRef expRef_strictMono expRef_pos

end BitTensorInference
